import Mathlib

/-!
Verification of the `lav` approximate-equality core.

The repository's numerically meaningful core is the epsilon/ULP approximate
equality test on IEEE-754 floating-point values (`Real::approx_eq` in
`src/real/mod.rs`, `SimdReal::simd_approx_eq` in `src/simd_real/mod.rs`) and
the saturating bit-distance primitive it depends on (`Bits::abs_sub` in
`src/bits/mod.rs`).

Floating-point values are embedded at the bit level: a value of a format with
`E` exponent bits and `S` significand bits is a natural number below
`2 ^ (E + S + 1)`.  The IEEE-754 operations the comparison uses (subtraction
with round-to-nearest-even, absolute value, ordered `<=`) are defined exactly
on this representation: every finite value of a format is an integer multiple
of its subnormal quantum, so values are handled as exact scaled integers.
-/

set_option maxRecDepth 20000
set_option linter.unusedVariables false
set_option exponentiation.threshold 5000

namespace Lav

/-- Saturating subtraction on unsigned integers of a common width: clamps to
zero instead of wrapping.  Embeds Rust's `uN::saturating_sub`, which on
operands below `2 ^ w` coincides with truncated natural subtraction. -/
def saturating_sub (x y : Nat) : Nat := x - y

/-- Absolute difference of two unsigned bit patterns, from `Bits::abs_sub` in
`src/bits/mod.rs`: `self.saturating_sub(other) | other.saturating_sub(self)`. -/
def abs_sub (x y : Nat) : Nat := saturating_sub x y ||| saturating_sub y x

/-- An IEEE-754 binary interchange format: `E` exponent bits and `S` trailing
significand bits (`S + 1` bits of precision).  `f32` is `⟨8, 23⟩` and `f64` is
`⟨11, 52⟩`.  A value of the format is its bit pattern, a natural number below
`2 ^ (E + S + 1)`. -/
structure Fmt where
  E : Nat
  S : Nat
  hE : 2 ≤ E
  hS : 1 ≤ S

/-- The 32-bit format of `f32`. -/
def f32 : Fmt := ⟨8, 23, by decide, by decide⟩

/-- The 64-bit format of `f64`. -/
def f64 : Fmt := ⟨11, 52, by decide, by decide⟩

/-- Total bit width of the format. -/
def Fmt.w (φ : Fmt) : Nat := φ.E + φ.S + 1

/-- Sign bit of a bit pattern (`0` or `1`). -/
def Fmt.sgn (φ : Fmt) (b : Nat) : Nat := b / 2 ^ (φ.E + φ.S) % 2

/-- Biased exponent field of a bit pattern. -/
def Fmt.expF (φ : Fmt) (b : Nat) : Nat := b / 2 ^ φ.S % 2 ^ φ.E

/-- Trailing significand field of a bit pattern. -/
def Fmt.sigF (φ : Fmt) (b : Nat) : Nat := b % 2 ^ φ.S

/-- NaN test, as Rust's `is_nan`: exponent field all ones and non-zero
significand field. -/
def Fmt.is_nan (φ : Fmt) (b : Nat) : Bool :=
  (φ.expF b == 2 ^ φ.E - 1) && (φ.sigF b != 0)

/-- Infinity test: exponent field all ones and zero significand field. -/
def Fmt.is_inf (φ : Fmt) (b : Nat) : Bool :=
  (φ.expF b == 2 ^ φ.E - 1) && (φ.sigF b == 0)

/-- Sign-bit test, as Rust's `is_sign_negative`: true on the bit patterns with
the sign bit set, including `-0.0` and negative NaNs. -/
def Fmt.is_sign_negative (φ : Fmt) (b : Nat) : Bool := φ.sgn b == 1

/-- Exponent bias of the format. -/
def Fmt.bias (φ : Fmt) : Nat := 2 ^ (φ.E - 1) - 1

/-- Exponent of the quantum (the value of one unit in the last place) of the
subnormal range, as an integer. -/
def Fmt.gSub (φ : Fmt) : Int := 1 - (φ.bias : Int) - (φ.S : Int)

/-- Integral significand of a finite bit pattern: the trailing field with the
implicit leading bit added in the normal range. -/
def Fmt.mant (φ : Fmt) (b : Nat) : Nat :=
  if φ.expF b = 0 then φ.sigF b else 2 ^ φ.S + φ.sigF b

/-- Exponent of the quantum of a finite bit pattern. -/
def Fmt.qexp (φ : Fmt) (b : Nat) : Int :=
  (max 1 (φ.expF b) : Int) - (φ.bias : Int) - (φ.S : Int)

/-- Exact value of a finite bit pattern, scaled by `2 ^ (-φ.gSub)`: every
finite value of the format is an integer multiple of the subnormal quantum
`2 ^ φ.gSub`, and `sval` is that integer.  Scaling by the fixed positive
constant preserves ordering, exact differences, and the rounding grid, so all
floating-point semantics below are stated on these exact scaled integers. -/
def Fmt.sval (φ : Fmt) (b : Nat) : Int :=
  (if φ.sgn b = 1 then -1 else 1) *
    ((φ.mant b * 2 ^ (max 1 (φ.expF b) - 1) : Nat) : Int)

/-- Bit pattern of positive infinity. -/
def Fmt.posInf (φ : Fmt) : Nat := (2 ^ φ.E - 1) * 2 ^ φ.S

/-- Bit pattern of negative infinity. -/
def Fmt.negInf (φ : Fmt) : Nat := 2 ^ (φ.E + φ.S) + (2 ^ φ.E - 1) * 2 ^ φ.S

/-- Bit pattern of the canonical quiet NaN. -/
def Fmt.nanBits (φ : Fmt) : Nat := (2 ^ φ.E - 1) * 2 ^ φ.S + 2 ^ (φ.S - 1)

/-- Fuel-driven floor of the base-two logarithm: `log2fuel f n = Nat.log2 n`
whenever `n ≤ f`.  Structural recursion on the fuel keeps it kernel
reducible. -/
def log2fuel : Nat → Nat → Nat
  | 0, _ => 0
  | f + 1, n => if 2 ≤ n then log2fuel f (n / 2) + 1 else 0

/-- Floor of the base-two logarithm of a positive natural number. -/
def log2nat (n : Nat) : Nat := log2fuel n n

/-- Encode a non-negative scaled magnitude `m * 2 ^ t` (in units of the
subnormal quantum) as a bit pattern: subnormal when `m < 2 ^ S` (valid for
`t = 0`), normal with biased exponent `t + 1` when `2 ^ S ≤ m < 2 ^ (S + 1)`,
and positive infinity on exponent overflow. -/
def Fmt.encode (φ : Fmt) (t m : Nat) : Nat :=
  if m = 0 then 0
  else if m < 2 ^ φ.S then m
  else if 2 ^ φ.E - 1 ≤ t + 1 then φ.posInf
  else (t + 1) * 2 ^ φ.S + (m - 2 ^ φ.S)

/-- Round a positive scaled magnitude `D` (an integer count of subnormal
quanta) to the nearest representable magnitude of the format, ties to even,
overflowing to infinity. -/
def Fmt.roundPosMag (φ : Fmt) (D : Nat) : Nat :=
  let L := log2nat D
  if L ≤ φ.S then φ.encode 0 D
  else
    let sh := L - φ.S
    let mf := D / 2 ^ sh
    let rem := D % 2 ^ sh
    let half := 2 ^ (sh - 1)
    let m := if rem < half then mf
      else if half < rem then mf + 1
      else if mf % 2 = 0 then mf else mf + 1
    if m = 2 ^ (φ.S + 1) then φ.encode (sh + 1) (2 ^ φ.S) else φ.encode sh m

/-- Round an exact scaled value (an integer count of subnormal quanta) to the
nearest bit pattern of the format (round to nearest, ties to even); an exact
zero rounds to `+0.0`. -/
def Fmt.roundToBits (φ : Fmt) (d : Int) : Nat :=
  if d = 0 then 0
  else if d < 0 then 2 ^ (φ.E + φ.S) + φ.roundPosMag d.natAbs
  else φ.roundPosMag d.natAbs

/-- IEEE-754 subtraction `a - b` on bit patterns, with round to nearest, ties
to even: NaN operands and same-signed infinities give NaN, infinities
propagate, and finite operands subtract exactly and round. -/
def Fmt.fsub (φ : Fmt) (a b : Nat) : Nat :=
  if φ.is_nan a || φ.is_nan b then φ.nanBits
  else if φ.is_inf a && φ.is_inf b then
    if φ.sgn a = φ.sgn b then φ.nanBits else a
  else if φ.is_inf a then a
  else if φ.is_inf b then if φ.sgn b = 1 then φ.posInf else φ.negInf
  else φ.roundToBits (φ.sval a - φ.sval b)

/-- IEEE-754 absolute value on bit patterns: clears the sign bit and keeps
everything else, including NaN payloads (Rust's `abs`). -/
def Fmt.fabs (φ : Fmt) (b : Nat) : Nat := b % 2 ^ (φ.E + φ.S)

/-- IEEE-754 ordered comparison `a <= b` on bit patterns: false when either
operand is NaN, `-inf` below everything, `+inf` above everything, finite
values compared by exact value (so `-0.0 <= +0.0 <= -0.0`). -/
def Fmt.fle (φ : Fmt) (a b : Nat) : Bool :=
  !φ.is_nan a && !φ.is_nan b &&
    ((φ.is_inf a && φ.is_sign_negative a) ||
      (φ.is_inf b && !φ.is_sign_negative b) ||
      (!φ.is_inf a && !φ.is_inf b && decide (φ.sval a ≤ φ.sval b)))

/-- Scalar approximate equality, transcribed from the blanket
`impl<R: Real> ApproxEq<R> for R` in `src/real/mod.rs`:

`Real::abs(*self - other) <= epsilon || !self.is_nan() && !other.is_nan() &&
self.is_sign_negative() == self.is_sign_negative() &&
self.to_bits().abs_sub(other.to_bits()) <= ulp`

including, verbatim, the source's sign gate that compares `self`'s sign
predicate with itself. -/
def Fmt.approx_eq (φ : Fmt) (a b eps ulp : Nat) : Bool :=
  φ.fle (φ.fabs (φ.fsub a b)) eps ||
    (!φ.is_nan a && !φ.is_nan b &&
      (φ.is_sign_negative a == φ.is_sign_negative a) &&
      decide (abs_sub a b ≤ ulp))

/-- One lane of `SimdReal::simd_approx_eq` from `src/simd_real/mod.rs`:

`(self - other).abs().simd_le(epsilon) | !(self.is_nan() | other.is_nan()) &
!(self.is_sign_negative() ^ other.is_sign_negative()) &
self_bits.abs_sub(other_bits).simd_le(ulp)`

with the cross-operand sign gate. -/
def Fmt.simd_approx_eq_lane (φ : Fmt) (a b eps ulp : Nat) : Bool :=
  φ.fle (φ.fabs (φ.fsub a b)) eps ||
    (!(φ.is_nan a || φ.is_nan b) &&
      !((φ.is_sign_negative a).xor (φ.is_sign_negative b)) &&
      decide (abs_sub a b ≤ ulp))

/-- `SimdReal::simd_approx_eq`: the lane computation applied independently to
the corresponding lanes of the operand vectors. -/
def Fmt.simd_approx_eq (φ : Fmt) :
    List Nat → List Nat → List Nat → List Nat → List Bool
  | a :: as, b :: bs, e :: es, u :: us =>
    φ.simd_approx_eq_lane a b e u :: φ.simd_approx_eq as bs es us
  | _, _, _, _ => []

/-- `Simd::splat`: a vector with the given value in every lane. -/
def splat (n : Nat) (x : Nat) : List Nat := List.replicate n x

/-- `Mask::all`: true when every lane of the mask is true. -/
def allLanes (m : List Bool) : Bool := m.all (fun x => x)

/-- The `ApproxEq` impl for SIMD vectors in `src/simd_real/f32.rs` and
`src/simd_real/f64.rs`: `self.simd_approx_eq(*other, splat(epsilon),
splat(ulp)).all()`. -/
def Fmt.simd_vec_approx_eq (φ : Fmt) (n : Nat) (a b : List Nat)
    (eps ulp : Nat) : Bool :=
  allLanes (φ.simd_approx_eq a b (splat n eps) (splat n ulp))

/-- The bit pattern of `-0.0`. -/
def Fmt.negZero (φ : Fmt) : Nat := 2 ^ (φ.E + φ.S)

/-- A non-negative tolerance: not NaN and, whether infinite or finite, of
non-negative value. -/
def nonnegTol (φ : Fmt) (eps : Nat) : Prop :=
  φ.is_nan eps = false ∧
    (φ.is_inf eps = true → φ.is_sign_negative eps = false) ∧
    (φ.is_inf eps = false → 0 ≤ φ.sval eps)

/-- A strictly negative tolerance: not NaN, sign bit set, and of strictly
negative value when finite (so `-0.0` is excluded). -/
def strictNegTol (φ : Fmt) (eps : Nat) : Prop :=
  φ.is_nan eps = false ∧ φ.is_sign_negative eps = true ∧
    (φ.is_inf eps = false → φ.sval eps < 0)

/-- Modelled from the spec: the spec's `nextafter(x)`, "the next representable
value `x'`" upward — the adjacent bit pattern with the next larger value:
`bits + 1` when the sign bit is clear, `bits - 1` when it is set.  The
repository has no such function; it appears only in the spec's property. -/
def specNextUp (φ : Fmt) (b : Nat) : Nat :=
  if φ.is_sign_negative b then b - 1 else b + 1

/-! ### Theorems -/

theorem abs_sub_comm (x y : Nat) : abs_sub x y = abs_sub y x := by
  simp [abs_sub, Nat.lor_comm]

theorem abs_sub_self (x : Nat) : abs_sub x x = 0 := by
  simp [abs_sub, saturating_sub]

theorem abs_sub_eq_max_sub_min (p q : Nat) :
    abs_sub p q = max p q - min p q := by
  rcases Nat.le_total p q with h | h
  · have hpq : p - q = 0 := Nat.sub_eq_zero_of_le h
    simp [abs_sub, saturating_sub, hpq, Nat.zero_or,
      Nat.max_eq_right h, Nat.min_eq_left h]
  · have hqp : q - p = 0 := Nat.sub_eq_zero_of_le h
    simp [abs_sub, saturating_sub, hqp, Nat.or_zero,
      Nat.max_eq_left h, Nat.min_eq_right h]

/-- C4: for all unsigned bit patterns `p, q` of width 32 or 64 (including `0`
and the maximum value), `abs_sub p q = saturating_sub p q ||| saturating_sub q p`
equals the exact absolute difference `max p q - min p q` (computed without
overflow), at most one of the two saturating subtractions is non-zero, and
both are zero exactly when `p = q`, so the bitwise OR never mixes bits of two
non-zero results. -/
theorem abs_sub_exact (w p q : Nat) (hw : w = 32 ∨ w = 64)
    (hp : p < 2 ^ w) (hq : q < 2 ^ w) :
    abs_sub p q = max p q - min p q ∧
      (saturating_sub p q = 0 ∨ saturating_sub q p = 0) ∧
      (saturating_sub p q = 0 ∧ saturating_sub q p = 0 ↔ p = q) := by
  refine ⟨abs_sub_eq_max_sub_min p q, ?_, ?_⟩
  · rcases Nat.le_total p q with h | h
    · exact Or.inl (by simp [saturating_sub, Nat.sub_eq_zero_of_le h])
    · exact Or.inr (by simp [saturating_sub, Nat.sub_eq_zero_of_le h])
  · constructor
    · rintro ⟨h1, h2⟩
      simp only [saturating_sub] at h1 h2
      omega
    · rintro rfl
      simp [saturating_sub]

/-- Concrete instance of `abs_sub_exact` at width 32 with the extreme values
`p = 0` and `q = 2 ^ 32 - 1`. -/
theorem abs_sub_exact_witness :
    abs_sub 0 (2 ^ 32 - 1) = max 0 (2 ^ 32 - 1) - min 0 (2 ^ 32 - 1) ∧
      (saturating_sub 0 (2 ^ 32 - 1) = 0 ∨ saturating_sub (2 ^ 32 - 1) 0 = 0) ∧
      (saturating_sub 0 (2 ^ 32 - 1) = 0 ∧ saturating_sub (2 ^ 32 - 1) 0 = 0 ↔
        0 = 2 ^ 32 - 1) :=
  abs_sub_exact 32 0 (2 ^ 32 - 1) (Or.inl rfl) (by decide) (by decide)

/-! ### Decoding lemmas -/

theorem Fmt.sigF_lt (φ : Fmt) (b : Nat) : φ.sigF b < 2 ^ φ.S :=
  Nat.mod_lt _ (Nat.pos_pow_of_pos _ (by decide))

theorem Fmt.expF_lt (φ : Fmt) (b : Nat) : φ.expF b < 2 ^ φ.E :=
  Nat.mod_lt _ (Nat.pos_pow_of_pos _ (by decide))

theorem Fmt.sgn_eq_zero (φ : Fmt) (b : Nat) (hb : b < 2 ^ (φ.E + φ.S)) :
    φ.sgn b = 0 := by
  unfold Fmt.sgn
  rw [Nat.div_eq_of_lt hb]

theorem Fmt.sgn_eq_one (φ : Fmt) (b : Nat) (h1 : 2 ^ (φ.E + φ.S) ≤ b)
    (h2 : b < 2 ^ (φ.E + φ.S) * 2) : φ.sgn b = 1 := by
  unfold Fmt.sgn
  have := Nat.pos_pow_of_pos (φ.E + φ.S) (show 0 < 2 by decide)
  have hdiv : b / 2 ^ (φ.E + φ.S) = 1 := by
    apply Nat.div_eq_of_lt_le <;> omega
  rw [hdiv]

theorem Fmt.decode_fields (φ : Fmt) (e s : Nat) (hs : s < 2 ^ φ.S)
    (he : e < 2 ^ φ.E) :
    φ.expF (e * 2 ^ φ.S + s) = e ∧ φ.sigF (e * 2 ^ φ.S + s) = s := by
  constructor
  · unfold Fmt.expF
    rw [Nat.mul_comm e (2 ^ φ.S),
      Nat.mul_add_div (Nat.pos_pow_of_pos _ (by decide)),
      Nat.div_eq_of_lt hs, Nat.add_zero, Nat.mod_eq_of_lt he]
  · unfold Fmt.sigF
    rw [Nat.mul_comm e (2 ^ φ.S), Nat.mul_add_mod, Nat.mod_eq_of_lt hs]

theorem Fmt.decode_fields_neg (φ : Fmt) (c : Nat) (hc : c < 2 ^ (φ.E + φ.S)) :
    φ.expF (2 ^ (φ.E + φ.S) + c) = φ.expF c ∧
      φ.sigF (2 ^ (φ.E + φ.S) + c) = φ.sigF c := by
  have hpow : 2 ^ (φ.E + φ.S) = 2 ^ φ.E * 2 ^ φ.S := (Nat.pow_add 2 φ.E φ.S)
  constructor
  · unfold Fmt.expF
    rw [hpow, Nat.mul_comm (2 ^ φ.E) (2 ^ φ.S),
      Nat.mul_add_div (Nat.pos_pow_of_pos _ (by decide)), Nat.add_mod_left]
  · unfold Fmt.sigF
    rw [hpow, Nat.mul_comm (2 ^ φ.E) (2 ^ φ.S), Nat.mul_add_mod]

theorem Fmt.emax_pos (φ : Fmt) : 0 < 2 ^ φ.E - 1 := by
  have h2 : (2 : Nat) ^ 2 ≤ 2 ^ φ.E := Nat.pow_le_pow_right (by decide) φ.hE
  omega

theorem Fmt.nanBits_lt (φ : Fmt) : φ.nanBits < 2 ^ (φ.E + φ.S) := by
  unfold Fmt.nanBits
  have hs : 2 ^ (φ.S - 1) < 2 ^ φ.S :=
    Nat.pow_lt_pow_right (by decide) (by have := φ.hS; omega)
  have hpow : 2 ^ (φ.E + φ.S) = 2 ^ φ.E * 2 ^ φ.S := (Nat.pow_add 2 φ.E φ.S)
  have he : 0 < 2 ^ φ.E := Nat.pos_pow_of_pos _ (by decide)
  calc (2 ^ φ.E - 1) * 2 ^ φ.S + 2 ^ (φ.S - 1)
      < (2 ^ φ.E - 1) * 2 ^ φ.S + 2 ^ φ.S := by omega
    _ = 2 ^ φ.E * 2 ^ φ.S := by
        rw [Nat.sub_one_mul]
        have : 2 ^ φ.S ≤ 2 ^ φ.E * 2 ^ φ.S :=
          Nat.le_mul_of_pos_left _ he
        omega
    _ = 2 ^ (φ.E + φ.S) := hpow.symm

theorem Fmt.is_nan_nanBits (φ : Fmt) : φ.is_nan φ.nanBits = true := by
  have hs : 2 ^ (φ.S - 1) < 2 ^ φ.S :=
    Nat.pow_lt_pow_right (by decide) (by have := φ.hS; omega)
  have hd := φ.decode_fields (2 ^ φ.E - 1) (2 ^ (φ.S - 1)) hs
    (by have := φ.emax_pos; omega)
  have hs0 : 0 < 2 ^ (φ.S - 1) := Nat.pos_pow_of_pos _ (by decide)
  unfold Fmt.is_nan Fmt.nanBits
  rw [hd.1, hd.2]
  simp [Nat.pos_iff_ne_zero.mp hs0]

theorem Fmt.fabs_nanBits (φ : Fmt) : φ.fabs φ.nanBits = φ.nanBits := by
  unfold Fmt.fabs
  exact Nat.mod_eq_of_lt φ.nanBits_lt

theorem Fmt.fle_nan_left (φ : Fmt) (a b : Nat) (h : φ.is_nan a = true) :
    φ.fle a b = false := by
  unfold Fmt.fle
  rw [h]
  simp

theorem Fmt.fle_nanBits (φ : Fmt) (b : Nat) : φ.fle φ.nanBits b = false :=
  φ.fle_nan_left _ b φ.is_nan_nanBits

/-! ### C3: the scalar sign gate is tautological -/

theorem Fmt.approx_eq_ungated (φ : Fmt) (a b eps ulp : Nat) :
    φ.approx_eq a b eps ulp =
      (φ.fle (φ.fabs (φ.fsub a b)) eps ||
        (!φ.is_nan a && !φ.is_nan b && decide (abs_sub a b ≤ ulp))) := by
  unfold Fmt.approx_eq
  simp

/-- C3: in the scalar `approx_eq` the sign-agreement gate compares a value's
own sign predicate with itself and is tautologically true, so for all
operands the ULP branch reduces to `both non-NaN and bit distance <= ulp`:
opposite-signed pairs are never excluded. -/
theorem approx_eq_sign_gate_tautological (φ : Fmt) (a b eps ulp : Nat) :
    (φ.is_sign_negative a == φ.is_sign_negative a) = true ∧
    φ.approx_eq a b eps ulp =
      (φ.fle (φ.fabs (φ.fsub a b)) eps ||
        (!φ.is_nan a && !φ.is_nan b && decide (abs_sub a b ≤ ulp))) := by
  exact ⟨by simp, φ.approx_eq_ungated a b eps ulp⟩

/-! ### C2: the intended cross-operand sign gate is not what the code does -/

/-- C2 failing input: for the 32-bit pair `a = +min_subnormal` (bits `1`) and
`b = -min_subnormal` (bits `0x80000001`), with `epsilon = +0.0` and
`ulp = 0x80000000`, the sign bits differ and the epsilon test fails, yet the
scalar `approx_eq` accepts the pair through its ULP branch — contradicting the
claim that the ULP test never accepts a pair whose sign bits differ. -/
theorem approx_eq_ulp_accepts_differing_signs :
    f32.is_sign_negative 1 = false ∧
    f32.is_sign_negative 0x80000001 = true ∧
    f32.fle (f32.fabs (f32.fsub 1 0x80000001)) 0 = false ∧
    f32.approx_eq 1 0x80000001 0 0x80000000 = true := by decide

/-! ### C1: lane-wise `.all()` does not agree with the scalar comparison -/

/-- C1 failing input: at the same opposite-signed 32-bit subnormal pair, the
lane-wise comparison on two-lane splat vectors rejects (its cross-operand sign
gate blocks the ULP branch in every lane) while the scalar comparison accepts,
so `lanes_approx_eq(splat a, splat b, splat eps, splat ulp).all()` differs
from `approx_eq(a, b, eps, ulp)`. -/
theorem simd_all_splat_ne_scalar :
    allLanes (f32.simd_approx_eq (splat 2 1) (splat 2 0x80000001)
        (splat 2 0) (splat 2 0x80000000)) = false ∧
    f32.approx_eq 1 0x80000001 0 0x80000000 = true := by decide

/-! ### Classification and sign lemmas -/

theorem Fmt.not_nan_of_inf (φ : Fmt) (b : Nat) (h : φ.is_inf b = true) :
    φ.is_nan b = false := by
  unfold Fmt.is_inf at h
  unfold Fmt.is_nan
  simp only [Bool.and_eq_true, beq_iff_eq] at h
  simp [h.1, h.2]

theorem Fmt.fabs_lt (φ : Fmt) (b : Nat) : φ.fabs b < 2 ^ (φ.E + φ.S) :=
  Nat.mod_lt _ (Nat.pos_pow_of_pos _ (by decide))

theorem Fmt.sgn_fabs (φ : Fmt) (b : Nat) : φ.sgn (φ.fabs b) = 0 :=
  φ.sgn_eq_zero _ (φ.fabs_lt b)

theorem Fmt.expF_zero (φ : Fmt) : φ.expF 0 = 0 := by
  simp [Fmt.expF]

theorem Fmt.sigF_zero (φ : Fmt) : φ.sigF 0 = 0 := by
  simp [Fmt.sigF]

theorem Fmt.is_nan_zero (φ : Fmt) : φ.is_nan 0 = false := by
  have := φ.emax_pos
  simp [Fmt.is_nan, φ.expF_zero]
  omega

theorem Fmt.is_inf_zero (φ : Fmt) : φ.is_inf 0 = false := by
  have := φ.emax_pos
  simp [Fmt.is_inf, φ.expF_zero]
  omega

theorem Fmt.sval_zero (φ : Fmt) : φ.sval 0 = 0 := by
  have h0 : φ.sgn 0 = 0 :=
    φ.sgn_eq_zero 0 (Nat.pos_pow_of_pos _ (by decide))
  simp [Fmt.sval, h0, Fmt.mant, φ.expF_zero, φ.sigF_zero]

theorem Fmt.negZero_fields (φ : Fmt) :
    φ.sgn φ.negZero = 1 ∧ φ.expF φ.negZero = 0 ∧ φ.sigF φ.negZero = 0 := by
  have hpos : 0 < 2 ^ (φ.E + φ.S) := Nat.pos_pow_of_pos _ (by decide)
  have hd := φ.decode_fields_neg 0 hpos
  have hz : φ.negZero = 2 ^ (φ.E + φ.S) := rfl
  refine ⟨φ.sgn_eq_one _ (by rw [hz]) (by rw [hz]; omega), ?_, ?_⟩
  · have := hd.1
    simpa [hz, φ.expF_zero] using this
  · have := hd.2
    simpa [hz, φ.sigF_zero] using this

theorem Fmt.is_nan_negZero (φ : Fmt) : φ.is_nan φ.negZero = false := by
  have := φ.emax_pos
  simp [Fmt.is_nan, φ.negZero_fields.2.1]
  omega

theorem Fmt.is_inf_negZero (φ : Fmt) : φ.is_inf φ.negZero = false := by
  have := φ.emax_pos
  simp [Fmt.is_inf, φ.negZero_fields.2.1]
  omega

theorem Fmt.sval_negZero (φ : Fmt) : φ.sval φ.negZero = 0 := by
  simp [Fmt.sval, Fmt.mant, φ.negZero_fields.1, φ.negZero_fields.2.1,
    φ.negZero_fields.2.2]

theorem Fmt.sval_nonneg (φ : Fmt) (b : Nat) (h : φ.sgn b = 0) :
    0 ≤ φ.sval b := by
  unfold Fmt.sval
  rw [h]
  have hm : (0 : Int) ≤ (φ.mant b : Int) := Int.natCast_nonneg _
  have hp : (0 : Int) ≤ (2 : Int) ^ (max 1 (φ.expF b) - 1) := by positivity
  simp only [one_ne_zero, if_neg (by omega : ¬(0 : Nat) = 1)]
  nlinarith

/-! ### C5: reflexivity except NaN -/

/-- C5: `approx_eq(x, x, 0, 0)` is true for every non-NaN `x`, finite or
infinite; for infinite `x` the epsilon test fails (because `inf - inf` is NaN)
and the ULP path with bit distance `0` rescues the comparison; for NaN `x` the
comparison is false. -/
theorem approx_eq_refl_except_nan (φ : Fmt) (b : Nat) (hb : b < 2 ^ φ.w) :
    (φ.is_nan b = false → φ.approx_eq b b 0 0 = true) ∧
    (φ.is_inf b = true → φ.fle (φ.fabs (φ.fsub b b)) 0 = false) ∧
    (φ.is_nan b = true → φ.approx_eq b b 0 0 = false) := by
  refine ⟨?_, ?_, ?_⟩
  · intro h
    simp [Fmt.approx_eq, h, abs_sub_self]
  · intro h
    have hnn := φ.not_nan_of_inf b h
    have hsub : φ.fsub b b = φ.nanBits := by
      unfold Fmt.fsub
      simp [hnn, h]
    rw [hsub, φ.fabs_nanBits]
    exact φ.fle_nanBits 0
  · intro h
    have hsub : φ.fsub b b = φ.nanBits := by
      unfold Fmt.fsub
      simp [h]
    unfold Fmt.approx_eq
    rw [hsub, φ.fabs_nanBits, φ.fle_nanBits, h]
    simp

/-- C5 at a concrete input: positive infinity of the 64-bit format is
approx-equal to itself at zero tolerances. -/
theorem approx_eq_refl_except_nan_witness :
    f64.approx_eq f64.posInf f64.posInf 0 0 = true :=
  (approx_eq_refl_except_nan f64 f64.posInf (by decide)).1 (by decide)

/-! ### C7: signed zeros compare approx-equal through the epsilon path -/

/-- C7: for every non-negative `epsilon` and every `ulp`, `+0.0` and `-0.0`
compare approx-equal, accepted by the epsilon path since
`abs(+0.0 - (-0.0)) = +0.0 <= epsilon`. -/
theorem approx_eq_signed_zero (φ : Fmt) (eps ulp : Nat)
    (h : nonnegTol φ eps) :
    φ.fle (φ.fabs (φ.fsub 0 φ.negZero)) eps = true ∧
    φ.approx_eq 0 φ.negZero eps ulp = true := by
  have hsub : φ.fsub 0 φ.negZero = 0 := by
    unfold Fmt.fsub
    rw [φ.is_nan_zero, φ.is_nan_negZero, φ.is_inf_zero, φ.is_inf_negZero]
    simp [Fmt.roundToBits, φ.sval_zero, φ.sval_negZero]
  have hfabs : φ.fabs (0 : Nat) = 0 := Nat.zero_mod _
  have hfle : φ.fle (φ.fabs (φ.fsub 0 φ.negZero)) eps = true := by
    rw [hsub, hfabs]
    unfold Fmt.fle
    rw [φ.is_nan_zero, φ.is_inf_zero, h.1]
    cases hinf : φ.is_inf eps with
    | true =>
      have hs := h.2.1 hinf
      simp only [Fmt.is_sign_negative, beq_eq_false_iff_ne, ne_eq] at hs
      simp [Fmt.is_sign_negative, hs]
    | false => simp [φ.sval_zero, h.2.2 hinf]
  refine ⟨hfle, ?_⟩
  unfold Fmt.approx_eq
  rw [hfle]
  simp

/-- C7 at the concrete input of the claim: `approx_eq(+0.0, -0.0, +0.0, 0)`
is true in the 64-bit format. -/
theorem approx_eq_signed_zero_witness :
    f64.fle (f64.fabs (f64.fsub 0 f64.negZero)) 0 = true ∧
    f64.approx_eq 0 f64.negZero 0 0 = true :=
  approx_eq_signed_zero f64 0 0 ⟨by decide, by decide, by decide⟩

/-! ### C8: NaN absorption -/

/-- C8: comparison against a NaN operand is false for every `x` (NaN or not),
every finite `epsilon` and every `ulp`: the epsilon test compares against NaN
and fails, and the ULP branch requires both operands non-NaN. -/
theorem approx_eq_nan_absorbs (φ : Fmt) (x y eps ulp : Nat)
    (hy : φ.is_nan y = true) (he1 : φ.is_nan eps = false)
    (he2 : φ.is_inf eps = false) :
    φ.approx_eq x y eps ulp = false := by
  have hsub : φ.fsub x y = φ.nanBits := by
    unfold Fmt.fsub
    simp [hy]
  unfold Fmt.approx_eq
  rw [hsub, φ.fabs_nanBits, φ.fle_nanBits, hy]
  simp

/-- C8 at the concrete input of the claim: `approx_eq(1.0, NaN, 1.0, 1000)`
is false in the 64-bit format. -/
theorem approx_eq_nan_absorbs_witness :
    f64.approx_eq 0x3FF0000000000000 f64.nanBits 0x3FF0000000000000 1000
      = false :=
  approx_eq_nan_absorbs f64 0x3FF0000000000000 f64.nanBits
    0x3FF0000000000000 1000 (by decide) (by decide) (by decide)

/-! ### C9: strictly negative epsilon -/

/-- C9 counterexample: the claim says the epsilon branch with a strictly
negative epsilon succeeds exactly when `a = b`; but at `a = b = 1.0` and
`epsilon = -1.0` (64-bit) the branch `abs(a - b) <= epsilon` evaluates to
`0.0 <= -1.0`, which is false although `a = b`. -/
theorem neg_epsilon_branch_fails_at_equality :
    ¬(f64.fle (f64.fabs (f64.fsub 0x3FF0000000000000 0x3FF0000000000000))
        0xBFF0000000000000 = true ↔
      (0x3FF0000000000000 : Nat) = 0x3FF0000000000000) := by decide

/-- C9 amended: for every strictly negative `epsilon` and all operands, the
scalar `approx_eq` still returns a well-defined boolean, but the epsilon
branch `abs(a - b) <= epsilon` is unsatisfiable — it fails even at exact
equality — so the result is exactly the ULP branch. -/
theorem approx_eq_neg_epsilon (φ : Fmt) (a b eps ulp : Nat)
    (h : strictNegTol φ eps) :
    φ.fle (φ.fabs (φ.fsub a b)) eps = false ∧
    φ.approx_eq a b eps ulp =
      (!φ.is_nan a && !φ.is_nan b && decide (abs_sub a b ≤ ulp)) := by
  have hfle : φ.fle (φ.fabs (φ.fsub a b)) eps = false := by
    set r := φ.fabs (φ.fsub a b) with hr
    have hsgnr : φ.sgn r = 0 := φ.sgn_fabs _
    unfold Fmt.fle
    cases hnanr : φ.is_nan r with
    | true => simp
    | false =>
      have hsr : φ.is_sign_negative r = false := by
        simp [Fmt.is_sign_negative, hsgnr]
      cases hinf : φ.is_inf eps with
      | true => simp [hsr, h.2.1]
      | false =>
        have hlt : φ.sval eps < 0 := h.2.2 hinf
        have hge : 0 ≤ φ.sval r := φ.sval_nonneg r hsgnr
        simp [hsr, h.2.1, hinf]
        omega
  refine ⟨hfle, ?_⟩
  unfold Fmt.approx_eq
  rw [hfle]
  simp

/-- C9 amended at a concrete input: `epsilon = -1.0`, `a = b = 1.0`,
`ulp = 0` in the 64-bit format. -/
theorem approx_eq_neg_epsilon_witness :
    f64.fle (f64.fabs (f64.fsub 0x3FF0000000000000 0x3FF0000000000000))
        0xBFF0000000000000 = false ∧
    f64.approx_eq 0x3FF0000000000000 0x3FF0000000000000 0xBFF0000000000000 0
      = (!f64.is_nan 0x3FF0000000000000 && !f64.is_nan 0x3FF0000000000000 &&
        decide (abs_sub 0x3FF0000000000000 0x3FF0000000000000 ≤ 0)) :=
  approx_eq_neg_epsilon f64 0x3FF0000000000000 0x3FF0000000000000
    0xBFF0000000000000 0 ⟨by decide, by decide, by decide⟩

/-! ### C10: the SIMD lane gate really is cross-operand -/

theorem simd_lane_of_sign_ne (φ : Fmt) (a b e u : Nat)
    (h : φ.is_sign_negative a ≠ φ.is_sign_negative b) :
    φ.simd_approx_eq_lane a b e u = φ.fle (φ.fabs (φ.fsub a b)) e := by
  unfold Fmt.simd_approx_eq_lane
  cases ha : φ.is_sign_negative a <;> cases hb : φ.is_sign_negative b <;>
    simp_all

/-- C10: `simd_approx_eq` gates its ULP branch on the two operands' sign bits
cross-operand: at every pair of corresponding lanes whose sign bits differ the
ULP branch contributes false and the lane result is exactly the epsilon test,
while the scalar `approx_eq` (self-comparing sign gate) reduces on such pairs
to the epsilon test OR the ungated ULP test. -/
theorem simd_approx_eq_cross_sign_gate (φ : Fmt)
    (va vb ve vu : List Nat) (i : Nat) (a b e u : Nat)
    (ha : va.get? i = some a) (hb : vb.get? i = some b)
    (he : ve.get? i = some e) (hu : vu.get? i = some u)
    (hsgn : φ.is_sign_negative a ≠ φ.is_sign_negative b) :
    (φ.simd_approx_eq va vb ve vu).get? i
      = some (φ.fle (φ.fabs (φ.fsub a b)) e) ∧
    φ.approx_eq a b e u =
      (φ.fle (φ.fabs (φ.fsub a b)) e ||
        (!φ.is_nan a && !φ.is_nan b && decide (abs_sub a b ≤ u))) := by
  refine ⟨?_, φ.approx_eq_ungated a b e u⟩
  induction va generalizing vb ve vu i with
  | nil => simp at ha
  | cons x xs ih =>
    cases vb with
    | nil => simp [Fmt.simd_approx_eq] at hb
    | cons y ys =>
      cases ve with
      | nil => simp [Fmt.simd_approx_eq] at he
      | cons z zs =>
        cases vu with
        | nil => simp [Fmt.simd_approx_eq] at hu
        | cons v vs =>
          cases i with
          | zero =>
            simp only [List.get?] at ha hb he hu
            injection ha with ha
            injection hb with hb
            injection he with he
            injection hu with hu
            subst ha hb he hu
            simp [Fmt.simd_approx_eq, simd_lane_of_sign_ne φ _ _ _ _ hsgn]
          | succ j =>
            simp only [List.get?] at ha hb he hu
            simpa [Fmt.simd_approx_eq] using ih ys zs vs j ha hb he hu

/-- C10 at a concrete pair of one-lane vectors with differing sign bits
(the opposite-signed 32-bit subnormal pair). -/
theorem simd_approx_eq_cross_sign_gate_witness :
    (f32.simd_approx_eq [1] [0x80000001] [0] [5]).get? 0
      = some (f32.fle (f32.fabs (f32.fsub 1 0x80000001)) 0) ∧
    f32.approx_eq 1 0x80000001 0 5 =
      (f32.fle (f32.fabs (f32.fsub 1 0x80000001)) 0 ||
        (!f32.is_nan 1 && !f32.is_nan 0x80000001 &&
          decide (abs_sub 1 0x80000001 ≤ 5))) :=
  simd_approx_eq_cross_sign_gate f32 [1] [0x80000001] [0] [5] 0
    1 0x80000001 0 5 rfl rfl rfl rfl (by decide)

/-! ### Lemmas towards C6: adjacent bit patterns -/

theorem log2fuel_spec : ∀ (f n : Nat), n ≠ 0 → n ≤ f →
    2 ^ log2fuel f n ≤ n ∧ n < 2 ^ (log2fuel f n + 1) := by
  intro f
  induction f with
  | zero => intro n h0 hle; omega
  | succ f ih =>
    intro n h0 hle
    unfold log2fuel
    by_cases h2 : 2 ≤ n
    · rw [if_pos h2]
      have hm0 : n / 2 ≠ 0 := by omega
      have hmf : n / 2 ≤ f := by omega
      obtain ⟨h3, h4⟩ := ih (n / 2) hm0 hmf
      set l := log2fuel f (n / 2)
      have e1 : 2 ^ (l + 1) = 2 * 2 ^ l := by ring
      have e2 : 2 ^ (l + 1 + 1) = 2 * 2 ^ (l + 1) := by ring
      omega
    · rw [if_neg h2]
      simp only [pow_zero, pow_one]
      omega

theorem log2nat_pow (t : Nat) : log2nat (2 ^ t) = t := by
  have hpos : (0 : Nat) < 2 ^ t := Nat.pos_pow_of_pos _ (by decide)
  obtain ⟨h1, h2⟩ := log2fuel_spec (2 ^ t) (2 ^ t) (by omega) (le_refl _)
  unfold log2nat
  set l := log2fuel (2 ^ t) (2 ^ t)
  have hl : l ≤ t := (Nat.pow_le_pow_iff_right (by decide)).mp h1
  have ht : t < l + 1 := (Nat.pow_lt_pow_iff_right (by decide)).mp h2
  omega

theorem Fmt.expF_eq_div (φ : Fmt) (c : Nat) (hc : c < 2 ^ (φ.E + φ.S)) :
    φ.expF c = c / 2 ^ φ.S := by
  unfold Fmt.expF
  have hpow : 2 ^ (φ.E + φ.S) = 2 ^ φ.E * 2 ^ φ.S := Nat.pow_add 2 φ.E φ.S
  have hdiv : c / 2 ^ φ.S < 2 ^ φ.E := by
    rw [Nat.div_lt_iff_lt_mul (Nat.pos_pow_of_pos _ (by decide))]
    omega
  exact Nat.mod_eq_of_lt hdiv

theorem Fmt.expF_le_of_finite (φ : Fmt) (c : Nat) (hn : φ.is_nan c = false)
    (hi : φ.is_inf c = false) : φ.expF c ≤ 2 ^ φ.E - 2 := by
  have hlt := φ.expF_lt c
  have hmax := φ.emax_pos
  by_cases h : φ.expF c = 2 ^ φ.E - 1
  · by_cases hs : φ.sigF c = 0
    · simp [Fmt.is_inf, h, hs] at hi
    · simp [Fmt.is_nan, h, hs] at hn
  · omega

theorem Fmt.finite_of_expF_le (φ : Fmt) (c : Nat)
    (h : φ.expF c ≤ 2 ^ φ.E - 2) :
    φ.is_nan c = false ∧ φ.is_inf c = false := by
  have h2 := φ.emax_pos
  have hne : φ.expF c ≠ 2 ^ φ.E - 1 := by omega
  constructor
  · simp [Fmt.is_nan, hne]
  · simp [Fmt.is_inf, hne]

theorem Fmt.posInf_le_pow (φ : Fmt) : (2 ^ φ.E - 1) * 2 ^ φ.S ≤ 2 ^ (φ.E + φ.S) := by
  have h1 : 2 ^ φ.E - 1 ≤ 2 ^ φ.E := Nat.sub_le _ _
  have : (2 ^ φ.E - 1) * 2 ^ φ.S ≤ 2 ^ φ.E * 2 ^ φ.S :=
    Nat.mul_le_mul h1 (le_refl _)
  rw [← Nat.pow_add] at this
  exact this

theorem Fmt.lt_posInf_of_finite (φ : Fmt) (c : Nat) (hc : c < 2 ^ (φ.E + φ.S))
    (h : φ.expF c ≤ 2 ^ φ.E - 2) : c < (2 ^ φ.E - 1) * 2 ^ φ.S := by
  have hdiv : c / 2 ^ φ.S < 2 ^ φ.E - 1 := by
    rw [← φ.expF_eq_div c hc]
    have := φ.emax_pos
    omega
  rw [Nat.div_lt_iff_lt_mul (Nat.pos_pow_of_pos _ (by decide))] at hdiv
  omega

theorem Fmt.expF_le_of_lt_posInf (φ : Fmt) (c : Nat)
    (h : c < (2 ^ φ.E - 1) * 2 ^ φ.S) : φ.expF c ≤ 2 ^ φ.E - 2 := by
  have hc : c < 2 ^ (φ.E + φ.S) := lt_of_lt_of_le h φ.posInf_le_pow
  rw [φ.expF_eq_div c hc]
  have hdiv : c / 2 ^ φ.S < 2 ^ φ.E - 1 := by
    rw [Nat.div_lt_iff_lt_mul (Nat.pos_pow_of_pos _ (by decide))]
    exact h
  omega

theorem Fmt.posInf_fields (φ : Fmt) :
    φ.expF φ.posInf = 2 ^ φ.E - 1 ∧ φ.sigF φ.posInf = 0 := by
  have hd := φ.decode_fields (2 ^ φ.E - 1) 0
    (Nat.pos_pow_of_pos _ (by decide)) (by have := φ.emax_pos; omega)
  simpa [Fmt.posInf] using hd

theorem Fmt.is_nan_posInf (φ : Fmt) : φ.is_nan φ.posInf = false := by
  simp [Fmt.is_nan, φ.posInf_fields.1, φ.posInf_fields.2]

theorem Fmt.is_inf_posInf (φ : Fmt) : φ.is_inf φ.posInf = true := by
  simp [Fmt.is_inf, φ.posInf_fields.1, φ.posInf_fields.2]

theorem Fmt.posInf_lt (φ : Fmt) : φ.posInf < 2 ^ (φ.E + φ.S) := by
  have hS : (0 : Nat) < 2 ^ φ.S := Nat.pos_pow_of_pos _ (by decide)
  have hmax := φ.emax_pos
  have h1 : 2 ^ φ.E - 1 < 2 ^ φ.E := by omega
  calc φ.posInf = (2 ^ φ.E - 1) * 2 ^ φ.S := rfl
    _ < 2 ^ φ.E * 2 ^ φ.S := by
        exact Nat.mul_lt_mul_of_lt_of_le h1 (le_refl _) hS
    _ = 2 ^ (φ.E + φ.S) := (Nat.pow_add 2 φ.E φ.S).symm

theorem Fmt.sgn_posInf (φ : Fmt) : φ.sgn φ.posInf = 0 :=
  φ.sgn_eq_zero _ φ.posInf_lt

theorem Fmt.sval_neg_decomp (φ : Fmt) (b : Nat) (h1 : 2 ^ (φ.E + φ.S) ≤ b)
    (h2 : b < 2 ^ (φ.E + φ.S) + 2 ^ (φ.E + φ.S)) :
    φ.sval b = -φ.sval (b - 2 ^ (φ.E + φ.S)) := by
  set c := b - 2 ^ (φ.E + φ.S) with hcdef
  have hb : b = 2 ^ (φ.E + φ.S) + c := by omega
  have hc : c < 2 ^ (φ.E + φ.S) := by omega
  have hd := φ.decode_fields_neg c hc
  have hsgnb : φ.sgn b = 1 := φ.sgn_eq_one b h1 (by omega)
  have hsgnc : φ.sgn c = 0 := φ.sgn_eq_zero c hc
  have hmant : φ.mant b = φ.mant c := by
    unfold Fmt.mant
    rw [hb, hd.1, hd.2]
  unfold Fmt.sval
  rw [hsgnb, hsgnc, hmant]
  rw [hb, hd.1]
  simp

theorem Fmt.sval_succ_sub (φ : Fmt) (c : Nat)
    (h : c + 1 < (2 ^ φ.E - 1) * 2 ^ φ.S) :
    φ.sval (c + 1) - φ.sval c
      = ((2 ^ (max 1 (φ.expF c) - 1) : Nat) : Int) := by
  have hS : (0 : Nat) < 2 ^ φ.S := Nat.pos_pow_of_pos _ (by decide)
  have hc1 : c + 1 < 2 ^ (φ.E + φ.S) := lt_of_lt_of_le h φ.posInf_le_pow
  have hc : c < 2 ^ (φ.E + φ.S) := by omega
  have hsgn : φ.sgn c = 0 := φ.sgn_eq_zero c hc
  have hsgn1 : φ.sgn (c + 1) = 0 := φ.sgn_eq_zero _ hc1
  have he2 : φ.expF c ≤ 2 ^ φ.E - 2 := φ.expF_le_of_lt_posInf c (by omega)
  have hE2 : (2 : Nat) ^ 2 ≤ 2 ^ φ.E := Nat.pow_le_pow_right (by decide) φ.hE
  set e := c / 2 ^ φ.S with hedef
  set s := c % 2 ^ φ.S with hsdef
  have hcs : c = e * 2 ^ φ.S + s := by
    rw [hedef, hsdef, Nat.mul_comm]
    exact (Nat.div_add_mod c _).symm
  have hslt : s < 2 ^ φ.S := Nat.mod_lt _ hS
  have heE : e < 2 ^ φ.E := by
    have hx := φ.expF_lt c
    rw [φ.expF_eq_div c hc] at hx
    rw [hedef]
    exact hx
  have hefields : φ.expF c = e ∧ φ.sigF c = s := by
    rw [hcs]
    exact φ.decode_fields e s hslt heE
  by_cases hs1 : s + 1 < 2 ^ φ.S
  · -- same binade: the significand field just increments
    have hfields1 : φ.expF (c + 1) = e ∧ φ.sigF (c + 1) = s + 1 := by
      have : c + 1 = e * 2 ^ φ.S + (s + 1) := by omega
      rw [this]
      exact φ.decode_fields e (s + 1) hs1 heE
    have hmant1 : φ.mant (c + 1) = φ.mant c + 1 := by
      unfold Fmt.mant
      rw [hfields1.1, hfields1.2, hefields.1, hefields.2]
      by_cases he : e = 0 <;> simp [he, Nat.add_assoc]
    unfold Fmt.sval
    rw [hsgn, hsgn1, hmant1, hfields1.1, hefields.1]
    simp only [if_neg (by omega : ¬(0 : Nat) = 1)]
    push_cast
    ring
  · -- binade rollover: significand field wraps to zero, exponent increments
    have hseq : s = 2 ^ φ.S - 1 := by omega
    have hce : c + 1 = (e + 1) * 2 ^ φ.S := by
      have hdist : (e + 1) * 2 ^ φ.S = e * 2 ^ φ.S + 2 ^ φ.S := by ring
      omega
    have he1E : e + 1 < 2 ^ φ.E := by
      by_contra hcon
      push_neg at hcon
      have hee : e + 1 = 2 ^ φ.E := by omega
      have hbad : c + 1 = 2 ^ (φ.E + φ.S) := by
        rw [hce, hee, ← Nat.pow_add]
      omega
    have hfields1 : φ.expF (c + 1) = e + 1 ∧ φ.sigF (c + 1) = 0 := by
      rw [hce]
      exact φ.decode_fields (e + 1) 0 hS he1E
    unfold Fmt.sval Fmt.mant
    rw [hsgn, hsgn1, hfields1.1, hfields1.2, hefields.1, hefields.2, hseq]
    simp only [if_neg (by omega : ¬(0 : Nat) = 1),
      if_neg (by omega : ¬e + 1 = 0)]
    by_cases he : e = 0
    · simp only [he]
      norm_num
    · simp only [if_neg he]
      have hmax1 : max 1 (e + 1) - 1 = e := by omega
      have hmax0 : max 1 e - 1 = e - 1 := by omega
      rw [hmax1, hmax0]
      have hpow2 : (2 : Nat) ^ e = 2 ^ (e - 1) * 2 := by
        rw [← pow_succ]
        congr 1
        omega
      rw [hpow2]
      push_cast [Nat.cast_sub (by omega : (1 : Nat) ≤ 2 ^ φ.S)]
      ring

theorem Fmt.sval_pos (φ : Fmt) (b : Nat) (hsgn : φ.sgn b = 0)
    (hm : φ.mant b ≠ 0) : 0 < φ.sval b := by
  unfold Fmt.sval
  rw [hsgn]
  simp only [one_mul, if_neg (by omega : ¬(0 : Nat) = 1)]
  have : 0 < φ.mant b * 2 ^ (max 1 (φ.expF b) - 1) :=
    Nat.mul_pos (Nat.pos_of_ne_zero hm) (Nat.pos_pow_of_pos _ (by decide))
  exact_mod_cast this

theorem Fmt.roundPosMag_pow (φ : Fmt) (t : Nat) (ht : t ≤ 2 ^ φ.E - 3) :
    φ.is_nan (φ.roundPosMag (2 ^ t)) = false ∧
    φ.is_inf (φ.roundPosMag (2 ^ t)) = false ∧
    φ.roundPosMag (2 ^ t) < 2 ^ (φ.E + φ.S) ∧
    0 < φ.sval (φ.roundPosMag (2 ^ t)) := by
  have h4 : (4 : Nat) ≤ 2 ^ φ.E := by
    have := Nat.pow_le_pow_right (show 1 ≤ 2 by decide) φ.hE
    simpa using this
  have hS : (0 : Nat) < 2 ^ φ.S := Nat.pos_pow_of_pos _ (by decide)
  have ht0 : (0 : Nat) < 2 ^ t := Nat.pos_pow_of_pos _ (by decide)
  have hpowES : 2 ^ φ.E * 2 ^ φ.S = 2 ^ (φ.E + φ.S) := (Nat.pow_add 2 _ _).symm
  simp only [Fmt.roundPosMag, log2nat_pow]
  by_cases hts : t ≤ φ.S
  · rw [if_pos hts]
    unfold Fmt.encode
    rw [if_neg (by omega)]
    by_cases hlt : 2 ^ t < 2 ^ φ.S
    · rw [if_pos hlt]
      have hf : φ.expF (2 ^ t) = 0 ∧ φ.sigF (2 ^ t) = 2 ^ t := by
        have := φ.decode_fields 0 (2 ^ t) hlt (by omega)
        simpa using this
      have hsgn : φ.sgn (2 ^ t) = 0 :=
        φ.sgn_eq_zero _ (by
          calc 2 ^ t < 2 ^ φ.S := hlt
            _ ≤ 2 ^ (φ.E + φ.S) := Nat.pow_le_pow_right (by decide) (by omega))
      refine ⟨?_, ?_, ?_, ?_⟩
      · simp [Fmt.is_nan, hf.1]
        omega
      · simp [Fmt.is_inf, hf.1]
        omega
      · calc 2 ^ t < 2 ^ φ.S := hlt
          _ ≤ 2 ^ (φ.E + φ.S) := Nat.pow_le_pow_right (by decide) (by omega)
      · refine φ.sval_pos _ hsgn ?_
        unfold Fmt.mant
        rw [hf.1, if_pos rfl, hf.2]
        omega
    · rw [if_neg hlt]
      have hEpos := φ.hE
      have hteq : t = φ.S := by
        rcases Nat.lt_or_ge t φ.S with h' | h'
        · exact absurd (Nat.pow_lt_pow_right (by decide) h') hlt
        · omega
      rw [if_neg (by omega), hteq, Nat.sub_self, Nat.add_zero, Nat.one_mul]
      have hf2 : φ.expF (2 ^ φ.S) = 1 ∧ φ.sigF (2 ^ φ.S) = 0 := by
        have := φ.decode_fields 1 0 hS (by omega)
        simpa using this
      have hlt2 : 2 ^ φ.S < 2 ^ (φ.E + φ.S) :=
        Nat.pow_lt_pow_right (by decide) (by omega)
      have hsgn : φ.sgn (2 ^ φ.S) = 0 := φ.sgn_eq_zero _ hlt2
      refine ⟨?_, ?_, hlt2, ?_⟩
      · unfold Fmt.is_nan
        rw [hf2.1, hf2.2]
        simp
      · unfold Fmt.is_inf
        rw [hf2.1, hf2.2]
        simp
        omega
      · refine φ.sval_pos _ hsgn ?_
        unfold Fmt.mant
        rw [hf2.1, if_neg (by omega), hf2.2]
        omega
  · rw [if_neg hts]
    have hsh : φ.S ≤ t := by omega
    have hmf : 2 ^ t / 2 ^ (t - φ.S) = 2 ^ φ.S := by
      rw [Nat.pow_div (by omega) (by decide)]
      congr 1
      omega
    have hrem : 2 ^ t % 2 ^ (t - φ.S) = 0 :=
      Nat.dvd_iff_mod_eq_zero.mp (pow_dvd_pow 2 (by omega))
    rw [hmf, hrem]
    rw [if_pos (Nat.pos_pow_of_pos _ (by decide) :
      (0 : Nat) < 2 ^ (t - φ.S - 1))]
    rw [if_neg (Nat.ne_of_lt (Nat.pow_lt_pow_right (by decide)
      (Nat.lt_succ_self φ.S)))]
    unfold Fmt.encode
    rw [if_neg (by omega), if_neg (by omega), if_neg (by omega), Nat.sub_self,
      Nat.add_zero]
    have heE : t - φ.S + 1 < 2 ^ φ.E := by omega
    have hf := φ.decode_fields (t - φ.S + 1) 0 hS heE
    have hf2 : φ.expF ((t - φ.S + 1) * 2 ^ φ.S) = t - φ.S + 1 ∧
        φ.sigF ((t - φ.S + 1) * 2 ^ φ.S) = 0 := by
      have := hf
      simpa using this
    have hlt2 : (t - φ.S + 1) * 2 ^ φ.S < 2 ^ (φ.E + φ.S) := by
      have h1 : (t - φ.S + 1) * 2 ^ φ.S < 2 ^ φ.E * 2 ^ φ.S :=
        Nat.mul_lt_mul_of_lt_of_le heE (le_refl _) hS
      omega
    have hsgn : φ.sgn ((t - φ.S + 1) * 2 ^ φ.S) = 0 := φ.sgn_eq_zero _ hlt2
    refine ⟨?_, ?_, hlt2, ?_⟩
    · simp [Fmt.is_nan, hf2.1]
      omega
    · simp [Fmt.is_inf, hf2.1]
      omega
    · refine φ.sval_pos _ hsgn ?_
      unfold Fmt.mant
      rw [hf2.1, if_neg (by omega), hf2.2]
      omega

theorem Fmt.ge_of_sgn_one (φ : Fmt) (b : Nat) (h : φ.sgn b = 1) :
    2 ^ (φ.E + φ.S) ≤ b := by
  by_contra hcon
  push_neg at hcon
  rw [φ.sgn_eq_zero b hcon] at h
  exact absurd h (by decide)

theorem abs_sub_succ (x : Nat) : abs_sub x (x + 1) = 1 := by
  have h1 : x - (x + 1) = 0 := by omega
  have h2 : x + 1 - x = 1 := by omega
  simp [abs_sub, saturating_sub, h1, h2, Nat.zero_or]

theorem abs_sub_pred (x : Nat) (hx : 1 ≤ x) : abs_sub x (x - 1) = 1 := by
  have h1 : x - (x - 1) = 1 := by omega
  have h2 : x - 1 - x = 0 := by omega
  simp [abs_sub, saturating_sub, h1, h2, Nat.or_zero]

theorem Fmt.fle_posInf_zero (φ : Fmt) : φ.fle φ.posInf 0 = false := by
  unfold Fmt.fle
  rw [φ.is_nan_posInf, φ.is_nan_zero, φ.is_inf_posInf, φ.is_inf_zero]
  simp [Fmt.is_sign_negative, φ.sgn_posInf]

theorem Fmt.fle_round_zero (φ : Fmt) (r : Nat) (h1 : φ.is_nan r = false)
    (h2 : φ.is_inf r = false) (h3 : 0 < φ.sval r) : φ.fle r 0 = false := by
  unfold Fmt.fle
  rw [h1, h2, φ.is_nan_zero, φ.is_inf_zero, φ.sval_zero]
  simp
  omega

theorem Fmt.fabs_add_pow (φ : Fmt) (r : Nat) (hr : r < 2 ^ (φ.E + φ.S)) :
    φ.fabs (2 ^ (φ.E + φ.S) + r) = r := by
  unfold Fmt.fabs
  rw [Nat.add_mod_left]
  exact Nat.mod_eq_of_lt hr

theorem Fmt.fsub_finite (φ : Fmt) (a b : Nat) (hna : φ.is_nan a = false)
    (hnb : φ.is_nan b = false) (hia : φ.is_inf a = false)
    (hib : φ.is_inf b = false) :
    φ.fsub a b = φ.roundToBits (φ.sval a - φ.sval b) := by
  unfold Fmt.fsub
  rw [hna, hnb, hia, hib]
  simp

theorem Fmt.fsub_fin_posInf (φ : Fmt) (a : Nat) (hna : φ.is_nan a = false)
    (hia : φ.is_inf a = false) : φ.fsub a φ.posInf = φ.negInf := by
  unfold Fmt.fsub
  rw [hna, φ.is_nan_posInf, hia, φ.is_inf_posInf]
  simp [φ.sgn_posInf]

theorem Fmt.roundToBits_neg_pow (φ : Fmt) (t : Nat) :
    φ.roundToBits (-((2 ^ t : Nat) : Int))
      = 2 ^ (φ.E + φ.S) + φ.roundPosMag (2 ^ t) := by
  have hpos : (0 : Int) < ((2 ^ t : Nat) : Int) := by
    exact_mod_cast Nat.pos_pow_of_pos t (by decide)
  unfold Fmt.roundToBits
  rw [if_neg (by omega), if_pos (by omega)]
  have hn : (-((2 ^ t : Nat) : Int)).natAbs = 2 ^ t := by
    rw [Int.natAbs_neg, Int.natAbs_ofNat]
  rw [hn]

theorem Fmt.approx_eq_parts (φ : Fmt) (a b' : Nat)
    (heps : φ.fle (φ.fabs (φ.fsub a b')) 0 = false)
    (hna : φ.is_nan a = false) (hnb : φ.is_nan b' = false)
    (habs : abs_sub a b' = 1) :
    φ.approx_eq a b' 0 1 = true ∧ φ.approx_eq a b' 0 0 = false := by
  unfold Fmt.approx_eq
  rw [heps, hna, hnb, habs]
  simp

/-- C6: for every finite `x` whose next representable value `x' = nextafter(x)`
has the same sign bit, `approx_eq(x, x', 0.0, 1)` is true and
`approx_eq(x, x', 0.0, 0)` is false: the rounded difference `x - x'` is a
non-zero magnitude that fails the epsilon test against `+0.0`, and the bit
distance of the two patterns is exactly `1`. -/
theorem approx_eq_adjacent_rescue (φ : Fmt) (b : Nat) (hb : b < 2 ^ φ.w)
    (hnan : φ.is_nan b = false) (hinf : φ.is_inf b = false)
    (hsame : φ.is_sign_negative (specNextUp φ b) = φ.is_sign_negative b) :
    φ.approx_eq b (specNextUp φ b) 0 1 = true ∧
    φ.approx_eq b (specNextUp φ b) 0 0 = false := by
  have h4 : (4 : Nat) ≤ 2 ^ φ.E := by
    have := Nat.pow_le_pow_right (show 1 ≤ 2 by decide) φ.hE
    simpa using this
  have hS : (0 : Nat) < 2 ^ φ.S := Nat.pos_pow_of_pos _ (by decide)
  have hES : (0 : Nat) < 2 ^ (φ.E + φ.S) := Nat.pos_pow_of_pos _ (by decide)
  have hexp : φ.expF b ≤ 2 ^ φ.E - 2 := φ.expF_le_of_finite b hnan hinf
  have hw2 : 2 ^ φ.w = 2 ^ (φ.E + φ.S) * 2 := by
    rw [Fmt.w, pow_succ]
  rw [hw2] at hb
  by_cases hsgn : φ.sgn b = 0
  · -- positive side: the next value up is `b + 1`
    have hbne : φ.is_sign_negative b = false := by
      simp [Fmt.is_sign_negative, hsgn]
    have hnext : specNextUp φ b = b + 1 := by
      simp [specNextUp, hbne]
    have hblt : b < 2 ^ (φ.E + φ.S) := by
      by_contra hcon
      push_neg at hcon
      have := φ.sgn_eq_one b hcon (by omega)
      omega
    have hbP : b < (2 ^ φ.E - 1) * 2 ^ φ.S := φ.lt_posInf_of_finite b hblt hexp
    rw [hnext]
    by_cases hA : b + 1 = (2 ^ φ.E - 1) * 2 ^ φ.S
    · -- the next value up is positive infinity
      have hb1 : b + 1 = φ.posInf := hA
      rw [hb1]
      have heps : φ.fle (φ.fabs (φ.fsub b φ.posInf)) 0 = false := by
        rw [φ.fsub_fin_posInf b hnan hinf]
        have hfa : φ.fabs φ.negInf = φ.posInf := by
          unfold Fmt.fabs Fmt.negInf
          rw [Nat.add_mod_left]
          exact Nat.mod_eq_of_lt φ.posInf_lt
        rw [hfa]
        exact φ.fle_posInf_zero
      have habs : abs_sub b φ.posInf = 1 := by
        rw [← hb1]
        exact abs_sub_succ b
      exact φ.approx_eq_parts b φ.posInf heps hnan φ.is_nan_posInf habs
    · -- the next value up is finite
      have hA2 : b + 1 < (2 ^ φ.E - 1) * 2 ^ φ.S := by omega
      have hd := φ.sval_succ_sub b hA2
      set t := max 1 (φ.expF b) - 1 with htdef
      have hm : max 1 (φ.expF b) ≤ 2 ^ φ.E - 2 :=
        max_le (by omega) hexp
      have ht : t ≤ 2 ^ φ.E - 3 := by omega
      have hfin1 := φ.finite_of_expF_le (b + 1)
        (φ.expF_le_of_lt_posInf (b + 1) hA2)
      have hdval : φ.sval b - φ.sval (b + 1) = -((2 ^ t : Nat) : Int) := by
        omega
      have hsub : φ.fsub b (b + 1)
          = 2 ^ (φ.E + φ.S) + φ.roundPosMag (2 ^ t) := by
        rw [φ.fsub_finite b (b + 1) hnan hfin1.1 hinf hfin1.2, hdval]
        exact φ.roundToBits_neg_pow t
      have hr := φ.roundPosMag_pow t ht
      have heps : φ.fle (φ.fabs (φ.fsub b (b + 1))) 0 = false := by
        rw [hsub, φ.fabs_add_pow _ hr.2.2.1]
        exact φ.fle_round_zero _ hr.1 hr.2.1 hr.2.2.2
      exact φ.approx_eq_parts b (b + 1) heps hnan hfin1.1 (abs_sub_succ b)
  · -- negative side: the next value up is `b - 1`
    have hsgn1 : φ.sgn b = 1 := by
      unfold Fmt.sgn at hsgn ⊢
      omega
    have hbneg : φ.is_sign_negative b = true := by
      simp [Fmt.is_sign_negative, hsgn1]
    have hnext : specNextUp φ b = b - 1 := by
      simp [specNextUp, hbneg]
    have hge : 2 ^ (φ.E + φ.S) ≤ b := φ.ge_of_sgn_one b hsgn1
    rw [hnext] at hsame ⊢
    have hge' : 2 ^ (φ.E + φ.S) ≤ b - 1 := by
      by_contra hcon
      push_neg at hcon
      have h0 : φ.sgn (b - 1) = 0 := φ.sgn_eq_zero _ hcon
      rw [hbneg] at hsame
      simp [Fmt.is_sign_negative, h0] at hsame
    set c := b - 2 ^ (φ.E + φ.S) with hcdef
    have hc1 : 1 ≤ c := by omega
    have hclt : c < 2 ^ (φ.E + φ.S) := by omega
    have hbc : b = 2 ^ (φ.E + φ.S) + c := by omega
    have hexpc : φ.expF c = φ.expF b := by
      rw [hbc]
      exact (φ.decode_fields_neg c hclt).1.symm
    have hcP : c < (2 ^ φ.E - 1) * 2 ^ φ.S :=
      φ.lt_posInf_of_finite c hclt (by rw [hexpc]; exact hexp)
    have hcc : c - 1 + 1 = c := by omega
    have hd := φ.sval_succ_sub (c - 1) (by rw [hcc]; exact hcP)
    rw [hcc] at hd
    set t := max 1 (φ.expF (c - 1)) - 1 with htdef
    have hexpc1 : φ.expF (c - 1) ≤ 2 ^ φ.E - 2 := by
      have hmono : φ.expF (c - 1) ≤ φ.expF c := by
        rw [φ.expF_eq_div _ (by omega), φ.expF_eq_div _ hclt]
        exact Nat.div_le_div_right (by omega)
      omega
    have hm : max 1 (φ.expF (c - 1)) ≤ 2 ^ φ.E - 2 :=
      max_le (by omega) hexpc1
    have ht : t ≤ 2 ^ φ.E - 3 := by omega
    have hb1c : b - 1 = 2 ^ (φ.E + φ.S) + (c - 1) := by omega
    have hfin1 : φ.is_nan (b - 1) = false ∧ φ.is_inf (b - 1) = false := by
      have hx := φ.decode_fields_neg (c - 1) (by omega)
      have hex : φ.expF (b - 1) = φ.expF (c - 1) := by
        rw [hb1c]
        exact hx.1
      exact φ.finite_of_expF_le _ (by rw [hex]; exact hexpc1)
    have hsvb : φ.sval b = -φ.sval c := φ.sval_neg_decomp b hge (by omega)
    have hsvb1 : φ.sval (b - 1) = -φ.sval (c - 1) := by
      have hy := φ.sval_neg_decomp (b - 1) hge' (by omega)
      rw [show b - 1 - 2 ^ (φ.E + φ.S) = c - 1 from by omega] at hy
      exact hy
    have hdval : φ.sval b - φ.sval (b - 1) = -((2 ^ t : Nat) : Int) := by
      rw [hsvb, hsvb1]
      omega
    have hsub : φ.fsub b (b - 1)
        = 2 ^ (φ.E + φ.S) + φ.roundPosMag (2 ^ t) := by
      rw [φ.fsub_finite b (b - 1) hnan hfin1.1 hinf hfin1.2, hdval]
      exact φ.roundToBits_neg_pow t
    have hr := φ.roundPosMag_pow t ht
    have heps : φ.fle (φ.fabs (φ.fsub b (b - 1))) 0 = false := by
      rw [hsub, φ.fabs_add_pow _ hr.2.2.1]
      exact φ.fle_round_zero _ hr.1 hr.2.1 hr.2.2.2
    exact φ.approx_eq_parts b (b - 1) heps hnan hfin1.1
      (abs_sub_pred b (by omega))

/-- C6 at the spec's concrete 64-bit input: `a = 1.0` and
`b = 1.0 + 2 ^ (-52)`, one ULP above, with `epsilon = +0.0`: accepted at
`ulp = 1`, rejected at `ulp = 0`. -/
theorem approx_eq_adjacent_rescue_witness :
    f64.approx_eq 0x3FF0000000000000 0x3FF0000000000001 0 1 = true ∧
    f64.approx_eq 0x3FF0000000000000 0x3FF0000000000001 0 0 = false := by
  have h := approx_eq_adjacent_rescue f64 0x3FF0000000000000
    (by decide) (by decide) (by decide) (by decide)
  exact h

end Lav
